import Mathlib

/-!
Shallow embedding of the `leetup` problem-listing core: the query-language
parser (`Query.fromStr`), the predicate evaluator (`applyQueries`), the
multi-key comparator used by `list_problems` (`listSortCmp`), the keyword
filter stage (`filterStage`), and the default `Ord`-derived sort
(`pairCmp` / `defaultSort`).  Strings are modelled as `List Char`
(Rust compares `String`s byte-wise; UTF-8 byte order coincides with
codepoint order), integers as `Nat` / `Int`, and Rust's stable
`sort_by` as `List.insertionSort`, which is stable and is characterised
by the permutation, sortedness and stability theorems proved below.
-/

namespace Leetup

/-! ### Definitions: the data model and the operations of the
problem-listing core, translated from the source, followed by the
spec-side definitions the claims compare against. -/

/-- A comparator is lawful when it is antisymmetric under `Ordering.swap` and
its `isLE` relation is transitive.  Both hold for every comparator produced
by a Rust `Ord` derive or by lexicographic composition of such comparators,
and they are exactly what a comparison-based sort needs. -/
structure LawfulCmp {α : Type*} (cmp : α → α → Ordering) : Prop where
  swap_eq : ∀ a b, cmp b a = (cmp a b).swap
  le_trans : ∀ {a b c}, (cmp a b).isLE = true → (cmp b c).isLE = true →
    (cmp a c).isLE = true

/-- The comparison function a Rust `Ord` instance computes on a totally
ordered ground type: `lt` / `eq` / `gt` by trichotomy. -/
def ordCmp {α : Type*} [LinearOrder α] (a b : α) : Ordering :=
  if a < b then .lt else if a = b then .eq else .gt

/-- Codepoint-wise lexicographic comparison of two strings modelled as
character lists: the comparison Rust's derived `Ord` performs on `String`
(byte-wise comparison of UTF-8 agrees with codepoint order). -/
def lexCmp : List Char → List Char → Ordering
  | [], [] => .eq
  | [], _ :: _ => .lt
  | _ :: _, [] => .gt
  | a :: as, b :: bs => (ordCmp a b).then (lexCmp as bs)

/-- The comparison Rust's derived `Ord` performs on `Option`: `None` sorts
before `Some`, and two `Some`s compare their contents. -/
def optCmp {α : Type*} (cmp : α → α → Ordering) :
    Option α → Option α → Ordering
  | none, none => .eq
  | none, some _ => .lt
  | some _, none => .gt
  | some a, some b => cmp a b

structure Difficulty where
  level : Nat
deriving DecidableEq

structure Stat where
  question_id : Nat
  question_article_live : Option Bool
  question_article_slug : Option (List Char)
  question_title : List Char
  question_title_slug : List Char
  question_hide : Bool
  total_acs : Nat
  total_submitted : Nat
  frontend_question_id : Nat
  is_new_question : Bool
deriving DecidableEq

structure StatStatusPair where
  stat : Stat
  status : Option (List Char)
  difficulty : Difficulty
  paid_only : Bool
  is_favor : Bool
  frequency : Int
  progress : Int
deriving DecidableEq

/-- The comparator Rust derives for `#[derive(Ord)] struct Stat`:
lexicographic over the fields in declaration order. -/
def statCmp (a b : Stat) : Ordering :=
  (ordCmp a.question_id b.question_id).then <|
  (optCmp ordCmp a.question_article_live b.question_article_live).then <|
  (optCmp lexCmp a.question_article_slug b.question_article_slug).then <|
  (lexCmp a.question_title b.question_title).then <|
  (lexCmp a.question_title_slug b.question_title_slug).then <|
  (ordCmp a.question_hide b.question_hide).then <|
  (ordCmp a.total_acs b.total_acs).then <|
  (ordCmp a.total_submitted b.total_submitted).then <|
  (ordCmp a.frontend_question_id b.frontend_question_id).then
  (ordCmp a.is_new_question b.is_new_question)

/-- The comparator Rust derives for `#[derive(Ord)] struct StatStatusPair`:
lexicographic over the fields in declaration order (the derived `Ord` of
`Difficulty` compares its single field `level`). -/
def pairCmp (a b : StatStatusPair) : Ordering :=
  (statCmp a.stat b.stat).then <|
  (optCmp lexCmp a.status b.status).then <|
  (ordCmp a.difficulty.level b.difficulty.level).then <|
  (ordCmp a.paid_only b.paid_only).then <|
  (ordCmp a.is_favor b.is_favor).then <|
  (ordCmp a.frequency b.frequency).then
  (ordCmp a.progress b.progress)

inductive Query where
  | Easy
  | Medium
  | Hard
  | NotEasy
  | NotMedium
  | NotHard
  | Locked
  | Unlocked
  | Done
  | NotDone
  | Starred
  | Unstarred
deriving DecidableEq

/-- One iteration of the `for c in q.chars()` loop body of
`Query::from_str`: push the clause for a recognized character, do nothing
for any other character. -/
def queryCharStep (queries : List Query) (c : Char) : List Query :=
  match c with
  | 'e' => queries ++ [Query.Easy]
  | 'E' => queries ++ [Query.NotEasy]
  | 'm' => queries ++ [Query.Medium]
  | 'M' => queries ++ [Query.NotMedium]
  | 'h' => queries ++ [Query.Hard]
  | 'H' => queries ++ [Query.NotHard]
  | 'l' => queries ++ [Query.Locked]
  | 'L' => queries ++ [Query.Unlocked]
  | 'd' => queries ++ [Query.Done]
  | 'D' => queries ++ [Query.NotDone]
  | 's' => queries ++ [Query.Starred]
  | 'S' => queries ++ [Query.Unstarred]
  | _ => queries

/-- `Query::from_str`: scan the characters left to right, starting from the
empty vector. -/
def Query.fromStr (q : List Char) : List Query :=
  q.foldl queryCharStep []

/-- The character-to-clause table exactly as the claim states it:
`e→Easy, E→NotEasy, m→Medium, M→NotMedium, h→Hard, H→NotHard, l→Locked,
L→Unlocked, d→Done, D→NotDone, s→Starred, S→Unstarred`, every other
character unrecognized. -/
def charToClause : Char → Option Query
  | 'e' => some Query.Easy
  | 'E' => some Query.NotEasy
  | 'm' => some Query.Medium
  | 'M' => some Query.NotMedium
  | 'h' => some Query.Hard
  | 'H' => some Query.NotHard
  | 'l' => some Query.Locked
  | 'L' => some Query.Unlocked
  | 'd' => some Query.Done
  | 'D' => some Query.NotDone
  | 's' => some Query.Starred
  | 'S' => some Query.Unstarred
  | _ => none

/-- One iteration of the `for q in queries` loop body of `apply_queries`:
conjoin the clause's predicate into the accumulator `is_satisfied`. -/
def applyStep (o : StatStatusPair) (is_satisfied : Bool) (q : Query) : Bool :=
  match q with
  | Query.Easy => is_satisfied && (o.difficulty.level == 1)
  | Query.NotEasy => is_satisfied && !(o.difficulty.level == 1)
  | Query.Medium => is_satisfied && (o.difficulty.level == 2)
  | Query.NotMedium => is_satisfied && !(o.difficulty.level == 2)
  | Query.Hard => is_satisfied && (o.difficulty.level == 3)
  | Query.NotHard => is_satisfied && !(o.difficulty.level == 3)
  | Query.Locked => is_satisfied && o.paid_only
  | Query.Unlocked => is_satisfied && !o.paid_only
  | Query.Done => is_satisfied && o.status.isSome
  | Query.NotDone => is_satisfied && o.status.isNone
  | Query.Starred => is_satisfied && o.is_favor
  | Query.Unstarred => is_satisfied && !o.is_favor

/-- `apply_queries`: fold every clause over `is_satisfied`, starting from
`true`. -/
def applyQueries (queries : List Query) (o : StatStatusPair) : Bool :=
  queries.foldl (applyStep o) true

/-- The per-clause semantics exactly as the claim states it: Easy/NotEasy is
difficulty level `= 1` / `≠ 1` (Medium 2, Hard 3 analogously), Locked/Unlocked
is `paid_only` true/false, Done/NotDone is completion status present/absent,
Starred/Unstarred is `is_favor` true/false. -/
def ClauseHolds (q : Query) (o : StatStatusPair) : Prop :=
  match q with
  | Query.Easy => o.difficulty.level = 1
  | Query.NotEasy => o.difficulty.level ≠ 1
  | Query.Medium => o.difficulty.level = 2
  | Query.NotMedium => o.difficulty.level ≠ 2
  | Query.Hard => o.difficulty.level = 3
  | Query.NotHard => o.difficulty.level ≠ 3
  | Query.Locked => o.paid_only = true
  | Query.Unlocked => o.paid_only = false
  | Query.Done => o.status.isSome = true
  | Query.NotDone => o.status = none
  | Query.Starred => o.is_favor = true
  | Query.Unstarred => o.is_favor = false

instance (q : Query) (o : StatStatusPair) : Decidable (ClauseHolds q o) := by
  unfold ClauseHolds; cases q <;> exact inferInstance

inductive OrderBy where
  | IdAsc
  | IdDesc
  | TitleAsc
  | TitleDesc
  | DifficultyAsc
  | DifficultyDesc
deriving DecidableEq

/-- One iteration of the `for order in &orders` loop body of the comparator
closure in `list_problems`: extend the accumulated `ordering` with the key's
comparison via `Ordering::then`, reversed (`Ordering::reverse`, here
`Ordering.swap`) for the descending variants. -/
def orderStep (a b : StatStatusPair) (ordering : Ordering)
    (order : OrderBy) : Ordering :=
  let id_ordering := ordCmp a.stat.question_id b.stat.question_id
  let title_ordering :=
    lexCmp a.stat.question_title_slug b.stat.question_title_slug
  let diff_ordering := ordCmp a.difficulty.level b.difficulty.level
  match order with
  | OrderBy.IdAsc => ordering.then id_ordering
  | OrderBy.IdDesc => ordering.then id_ordering.swap
  | OrderBy.TitleAsc => ordering.then title_ordering
  | OrderBy.TitleDesc => ordering.then title_ordering.swap
  | OrderBy.DifficultyAsc => ordering.then diff_ordering
  | OrderBy.DifficultyDesc => ordering.then diff_ordering.swap

/-- The comparator closure `list_problems` passes to `sort_by` when an order
specification is present: fold the parsed keys over `Ordering::Equal`. -/
def listSortCmp (orders : List OrderBy) (a b : StatStatusPair) : Ordering :=
  orders.foldl (orderStep a b) Ordering.eq

/-- A single key's comparison, the descending variants inverting exactly
that key's result, as the claim states. -/
def keyCmp : OrderBy → StatStatusPair → StatStatusPair → Ordering
  | OrderBy.IdAsc, a, b => ordCmp a.stat.question_id b.stat.question_id
  | OrderBy.IdDesc, a, b =>
    (ordCmp a.stat.question_id b.stat.question_id).swap
  | OrderBy.TitleAsc, a, b =>
    lexCmp a.stat.question_title_slug b.stat.question_title_slug
  | OrderBy.TitleDesc, a, b =>
    (lexCmp a.stat.question_title_slug b.stat.question_title_slug).swap
  | OrderBy.DifficultyAsc, a, b => ordCmp a.difficulty.level b.difficulty.level
  | OrderBy.DifficultyDesc, a, b =>
    (ordCmp a.difficulty.level b.difficulty.level).swap

/-- The multi-key comparison as the claim words it: comparing key by key
left to right, the first key whose comparison is non-equal decides. -/
def specMultiKeyCmp : List OrderBy → StatStatusPair → StatStatusPair → Ordering
  | [], _, _ => Ordering.eq
  | o :: rest, a, b =>
    match keyCmp o a b with
    | Ordering.eq => specMultiKeyCmp rest a b
    | r => r

/-- The non-strict relation a comparator induces: what Rust's stable
`sort_by` sorts by. -/
def cmpLE {α : Type*} (cmp : α → α → Ordering) (a b : α) : Prop :=
  (cmp a b).isLE = true

instance {α : Type*} (cmp : α → α → Ordering) : DecidableRel (cmpLE cmp) :=
  fun _ _ => inferInstanceAs (Decidable (_ = true))

/-- `probs.sort_by(comparator)` with the multi-key comparator: Rust's
`sort_by` is a stable sort, modelled by stable insertion sort (a stable
sort under a total preorder is unique, and the permutation, sortedness and
stability theorems below are exactly that characterisation). -/
def sortByOrders (orders : List OrderBy)
    (probs : List StatStatusPair) : List StatStatusPair :=
  List.insertionSort (cmpLE (listSortCmp orders)) probs

/-- `probs.sort_by(Ord::cmp)`: the default sort by the derived ordering. -/
def defaultSort (probs : List StatStatusPair) : List StatStatusPair :=
  List.insertionSort (cmpLE pairCmp) probs

/-- The sort stage of `list_problems` in `src/src/service/leetcode.rs`:
a present order specification drives the multi-key comparator
(`OrderBy::from_str` lives in `crate::cmd`, outside `src/`, so the stage is
parameterized by the already-parsed key sequence); an absent one falls back
to `sort_by(Ord::cmp)`. -/
def sortStage (order : Option (List OrderBy))
    (probs : List StatStatusPair) : List StatStatusPair :=
  match order with
  | some orders => sortByOrders orders probs
  | none => defaultSort probs

/-- `str::to_ascii_lowercase`: ASCII uppercase letters gain 32, every other
character is unchanged (multi-byte UTF-8 units are never ASCII uppercase,
so the per-character map equals Rust's per-byte map). -/
def toAsciiLowercase (s : List Char) : List Char :=
  s.map fun c => if 'A' ≤ c ∧ c ≤ 'Z' then Char.ofNat (c.toNat + 32) else c

/-- `str::contains(&str)`: contiguous substring containment (UTF-8 is
self-synchronizing, so byte-level containment of one valid string in
another is exactly character-level containment). -/
def containsSub (haystack needle : List Char) : Bool :=
  decide (needle <:+: haystack)

/-- The filter predicate of `list_problems` in `src/src/service/list.rs`
(lines 187-195), identical to the one in `src/src/service/leetcode.rs` when
a query string is present: the lower-cased keyword, defaulted to the empty
string, must be contained in `title_slug`, and the parsed clauses must all
be satisfied. -/
def filterPredicate (queries : List Query) (keyword : Option (List Char))
    (o : StatStatusPair) : Bool :=
  containsSub o.stat.question_title_slug (toAsciiLowercase (keyword.getD []))
    && applyQueries queries o

/-- `probs.iter().filter(filter_predicate).collect()`. -/
def filterStage (queries : List Query) (keyword : Option (List Char))
    (probs : List StatStatusPair) : List StatStatusPair :=
  probs.filter (filterPredicate queries keyword)

/-- Modelled from the spec: the CLI layer's `List` command value (the
struct lives in `crate::cmd`, outside `src/`); per spec section 6 it
carries three independent optional strings — an order specification, a
query-clause string, and a keyword string. -/
structure ListCmd where
  order : Option (List Char)
  query : Option (List Char)
  keyword : Option (List Char)

/-- `list_problems` of `src/src/service/list.rs` (lines 182-204),
parameterized by the fetched record set: `list.query.as_ref().unwrap()`
panics when the query string is absent (modelled as `none`); otherwise the
records are sorted with `Ord::cmp`, filtered, and listed. -/
def listProblemsList (list : ListCmd)
    (probs : List StatStatusPair) : Option (List StatStatusPair) :=
  match list.query with
  | none => none
  | some q =>
    some (filterStage (Query.fromStr q) list.keyword (defaultSort probs))

/-- The default ordering exactly as claim C6 words it: identifier, then
title, then difficulty, then the remaining fields (those in declaration
order). -/
def claimDefaultCmp (a b : StatStatusPair) : Ordering :=
  (ordCmp a.stat.question_id b.stat.question_id).then <|
  (lexCmp a.stat.question_title b.stat.question_title).then <|
  (ordCmp a.difficulty.level b.difficulty.level).then <|
  (optCmp ordCmp a.stat.question_article_live b.stat.question_article_live).then <|
  (optCmp lexCmp a.stat.question_article_slug b.stat.question_article_slug).then <|
  (lexCmp a.stat.question_title_slug b.stat.question_title_slug).then <|
  (ordCmp a.stat.question_hide b.stat.question_hide).then <|
  (ordCmp a.stat.total_acs b.stat.total_acs).then <|
  (ordCmp a.stat.total_submitted b.stat.total_submitted).then <|
  (ordCmp a.stat.frontend_question_id b.stat.frontend_question_id).then <|
  (ordCmp a.stat.is_new_question b.stat.is_new_question).then <|
  (optCmp lexCmp a.status b.status).then <|
  (ordCmp a.paid_only b.paid_only).then <|
  (ordCmp a.is_favor b.is_favor).then <|
  (ordCmp a.frequency b.frequency).then
  (ordCmp a.progress b.progress)

/-- The stable sort by the ordering claim C6 describes. -/
def claimDefaultSort (probs : List StatStatusPair) : List StatStatusPair :=
  List.insertionSort (cmpLE claimDefaultCmp) probs

/-- A record with the given id, slug (also used as the title), and
difficulty level; every other field neutral. -/
def mkRecord (id : Nat) (slug : List Char) (level : Nat) : StatStatusPair where
  stat :=
    { question_id := id
      question_article_live := none
      question_article_slug := none
      question_title := slug
      question_title_slug := slug
      question_hide := false
      total_acs := 0
      total_submitted := 0
      frontend_question_id := id
      is_new_question := false }
  status := none
  difficulty := { level := level }
  paid_only := false
  is_favor := false
  frequency := 0
  progress := 0

/-- The three sortable axes, each with an ascending and a descending
`OrderBy` variant. -/
inductive Axis where
  | id
  | title
  | difficulty
deriving DecidableEq

def Axis.asc : Axis → OrderBy
  | Axis.id => OrderBy.IdAsc
  | Axis.title => OrderBy.TitleAsc
  | Axis.difficulty => OrderBy.DifficultyAsc

def Axis.desc : Axis → OrderBy
  | Axis.id => OrderBy.IdDesc
  | Axis.title => OrderBy.TitleDesc
  | Axis.difficulty => OrderBy.DifficultyDesc

/-- A record with question id 10, `question_article_live = some true`, and
title/slug `['a']`; other fields neutral. -/
def recLiveA : StatStatusPair where
  stat :=
    { question_id := 10
      question_article_live := some true
      question_article_slug := none
      question_title := ['a']
      question_title_slug := ['a']
      question_hide := false
      total_acs := 0
      total_submitted := 0
      frontend_question_id := 10
      is_new_question := false }
  status := none
  difficulty := { level := 1 }
  paid_only := false
  is_favor := false
  frequency := 0
  progress := 0

/-- Like `recLiveA` but with `question_article_live = none` and title/slug
`['b']`: the derived ordering puts it before `recLiveA` (`None < Some` on
the article-live field, declared before the title), while an
identifier-title-difficulty ordering puts it after (`'b' > 'a'`). -/
def recLiveB : StatStatusPair where
  stat :=
    { question_id := 10
      question_article_live := none
      question_article_slug := none
      question_title := ['b']
      question_title_slug := ['b']
      question_hide := false
      total_acs := 0
      total_submitted := 0
      frontend_question_id := 10
      is_new_question := false }
  status := none
  difficulty := { level := 1 }
  paid_only := false
  is_favor := false
  frequency := 0
  progress := 0

/-! ### Theorems -/

@[simp] theorem lt_then (x : Ordering) : Ordering.lt.then x = .lt := rfl

@[simp] theorem eq_then (x : Ordering) : Ordering.eq.then x = x := rfl

@[simp] theorem gt_then (x : Ordering) : Ordering.gt.then x = .gt := rfl

@[simp] theorem isLE_lt : Ordering.lt.isLE = true := rfl

@[simp] theorem isLE_eq : Ordering.eq.isLE = true := rfl

@[simp] theorem isLE_gt : Ordering.gt.isLE = false := rfl

@[simp] theorem swap_lt : Ordering.lt.swap = .gt := rfl

@[simp] theorem swap_eq : Ordering.eq.swap = .eq := rfl

@[simp] theorem swap_gt : Ordering.gt.swap = .lt := rfl

theorem then_eq_right (x : Ordering) : x.then Ordering.eq = x := by
  cases x <;> rfl

theorem then_assoc (x y z : Ordering) :
    (x.then y).then z = x.then (y.then z) := by
  cases x <;> rfl

theorem then_swap (x y : Ordering) :
    (x.swap).then (y.swap) = (x.then y).swap := by
  cases x <;> rfl

theorem isLE_then_left {x y : Ordering} (h : (x.then y).isLE = true) :
    x.isLE = true := by
  cases x <;> simp_all

namespace LawfulCmp

variable {α : Type*} {cmp : α → α → Ordering}

theorem eq_symm (h : LawfulCmp cmp) {a b : α} (hab : cmp a b = .eq) :
    cmp b a = .eq := by
  rw [h.swap_eq, hab]; rfl

theorem isLE_of_eq {x : Ordering} (hx : x = .eq) : x.isLE = true := by
  subst hx; rfl

theorem isLE_of_lt {x : Ordering} (hx : x = .lt) : x.isLE = true := by
  subst hx; rfl

theorem eq_trans' (h : LawfulCmp cmp) {a b c : α}
    (hab : cmp a b = .eq) (hbc : cmp b c = .eq) : cmp a c = .eq := by
  have h1 : (cmp a c).isLE = true :=
    h.le_trans (isLE_of_eq hab) (isLE_of_eq hbc)
  have h2 : (cmp c a).isLE = true :=
    h.le_trans (isLE_of_eq (h.eq_symm hbc)) (isLE_of_eq (h.eq_symm hab))
  rw [h.swap_eq a c] at h2
  cases hac : cmp a c
  · rw [hac] at h2; simp at h2
  · rfl
  · rw [hac] at h1; simp at h1

theorem lt_of_lt_of_eq (h : LawfulCmp cmp) {a b c : α}
    (hab : cmp a b = .lt) (hbc : cmp b c = .eq) : cmp a c = .lt := by
  have h1 : (cmp a c).isLE = true :=
    h.le_trans (isLE_of_lt hab) (isLE_of_eq hbc)
  have h2 : cmp a c ≠ .eq := by
    intro hac
    have h3 : (cmp b a).isLE = true :=
      h.le_trans (isLE_of_eq hbc) (isLE_of_eq (h.eq_symm hac))
    rw [h.swap_eq, hab] at h3
    simp at h3
  cases hac : cmp a c
  · rfl
  · exact absurd hac h2
  · rw [hac] at h1; simp at h1

theorem lt_of_eq_of_lt (h : LawfulCmp cmp) {a b c : α}
    (hab : cmp a b = .eq) (hbc : cmp b c = .lt) : cmp a c = .lt := by
  have h1 : (cmp a c).isLE = true :=
    h.le_trans (isLE_of_eq hab) (isLE_of_lt hbc)
  have h2 : cmp a c ≠ .eq := by
    intro hac
    have h3 : (cmp c b).isLE = true :=
      h.le_trans (isLE_of_eq (h.eq_symm hac)) (isLE_of_eq hab)
    rw [h.swap_eq, hbc] at h3
    simp at h3
  cases hac : cmp a c
  · rfl
  · exact absurd hac h2
  · rw [hac] at h1; simp at h1

theorem lt_trans' (h : LawfulCmp cmp) {a b c : α}
    (hab : cmp a b = .lt) (hbc : cmp b c = .lt) : cmp a c = .lt := by
  have h1 : (cmp a c).isLE = true :=
    h.le_trans (isLE_of_lt hab) (isLE_of_lt hbc)
  have h2 : cmp a c ≠ .eq := by
    intro hac
    have h3 : (cmp b a).isLE = true :=
      h.le_trans (isLE_of_lt hbc) (isLE_of_eq (h.eq_symm hac))
    rw [h.swap_eq, hab] at h3
    simp at h3
  cases hac : cmp a c
  · rfl
  · exact absurd hac h2
  · rw [hac] at h1; simp at h1

theorem congr {cmp' : α → α → Ordering} (h : LawfulCmp cmp)
    (he : ∀ a b, cmp a b = cmp' a b) : LawfulCmp cmp' where
  swap_eq a b := by rw [← he, ← he, h.swap_eq]
  le_trans {a b c} hab hbc := by
    rw [← he] at hab hbc ⊢; exact h.le_trans hab hbc

theorem comap {β : Type*} (h : LawfulCmp cmp) (f : β → α) :
    LawfulCmp (fun a b => cmp (f a) (f b)) where
  swap_eq a b := h.swap_eq (f a) (f b)
  le_trans {a b c} hab hbc := h.le_trans hab hbc

theorem swapCmp (h : LawfulCmp cmp) :
    LawfulCmp (fun a b => (cmp a b).swap) where
  swap_eq a b := by
    show (cmp b a).swap = ((cmp a b).swap).swap
    rw [h.swap_eq a b]
  le_trans {a b c} hab hbc := by
    have hab' : (cmp b a).isLE = true := by
      rw [h.swap_eq]; exact hab
    have hbc' : (cmp c b).isLE = true := by
      rw [h.swap_eq]; exact hbc
    show ((cmp a c).swap).isLE = true
    rw [← h.swap_eq]
    exact h.le_trans hbc' hab'

theorem thenCmp {cmp₂ : α → α → Ordering} (h1 : LawfulCmp cmp)
    (h2 : LawfulCmp cmp₂) :
    LawfulCmp (fun a b => (cmp a b).then (cmp₂ a b)) where
  swap_eq a b := by
    show (cmp b a).then (cmp₂ b a) = ((cmp a b).then (cmp₂ a b)).swap
    rw [h1.swap_eq a b, h2.swap_eq a b, then_swap]
  le_trans {a b c} hab hbc := by
    have hab' : ((cmp a b).then (cmp₂ a b)).isLE = true := hab
    have hbc' : ((cmp b c).then (cmp₂ b c)).isLE = true := hbc
    show ((cmp a c).then (cmp₂ a c)).isLE = true
    cases h1ab : cmp a b <;> rw [h1ab] at hab' <;>
        cases h1bc : cmp b c <;> rw [h1bc] at hbc'
    · rw [h1.lt_trans' h1ab h1bc]; simp
    · rw [h1.lt_of_lt_of_eq h1ab h1bc]; simp
    · simp at hbc'
    · rw [h1.lt_of_eq_of_lt h1ab h1bc]; simp
    · rw [h1.eq_trans' h1ab h1bc]
      simp only [eq_then] at hab' hbc' ⊢
      exact h2.le_trans hab' hbc'
    · simp at hbc'
    · simp at hab'
    · simp at hab'
    · simp at hab'

end LawfulCmp

theorem ordCmp_eq_lt {α : Type*} [LinearOrder α] {a b : α} :
    ordCmp a b = .lt ↔ a < b := by
  unfold ordCmp
  split
  · simp [*]
  · split <;> simp_all

theorem ordCmp_eq_eq {α : Type*} [LinearOrder α] {a b : α} :
    ordCmp a b = .eq ↔ a = b := by
  unfold ordCmp
  split
  · constructor
    · intro h; cases h
    · rintro rfl; simp_all
  · split <;> simp_all

theorem ordCmp_eq_gt {α : Type*} [LinearOrder α] {a b : α} :
    ordCmp a b = .gt ↔ b < a := by
  unfold ordCmp
  split
  · constructor
    · intro h; cases h
    · intro h; exact absurd (lt_trans h ‹a < b›) (lt_irrefl b)
  · split
    · subst ‹a = b›; simp [lt_irrefl]
    · simp only [true_iff]
      rcases lt_trichotomy a b with h | h | h
      · exact absurd h ‹¬a < b›
      · exact absurd h ‹¬a = b›
      · exact h

theorem ordCmp_isLE {α : Type*} [LinearOrder α] {a b : α} :
    (ordCmp a b).isLE = true ↔ a ≤ b := by
  cases h : ordCmp a b
  · simp only [isLE_lt, true_iff]
    exact le_of_lt (ordCmp_eq_lt.mp h)
  · simp only [isLE_eq, true_iff]
    exact le_of_eq (ordCmp_eq_eq.mp h)
  · simp only [isLE_gt, Bool.false_eq_true, false_iff, not_le]
    exact ordCmp_eq_gt.mp h

theorem ordCmp_lawful {α : Type*} [LinearOrder α] :
    LawfulCmp (ordCmp (α := α)) where
  swap_eq a b := by
    rcases lt_trichotomy a b with h | h | h
    · rw [ordCmp_eq_lt.mpr h, ordCmp_eq_gt.mpr h]; rfl
    · subst h; rw [ordCmp_eq_eq.mpr rfl]; rfl
    · rw [ordCmp_eq_gt.mpr h, ordCmp_eq_lt.mpr h]; rfl
  le_trans {a b c} hab hbc :=
    ordCmp_isLE.mpr (le_trans (ordCmp_isLE.mp hab) (ordCmp_isLE.mp hbc))

theorem lexCmp_swap : ∀ as bs : List Char, lexCmp bs as = (lexCmp as bs).swap
  | [], [] => rfl
  | [], _ :: _ => rfl
  | _ :: _, [] => rfl
  | a :: as, b :: bs => by
    show (ordCmp b a).then (lexCmp bs as) = ((ordCmp a b).then (lexCmp as bs)).swap
    rw [ordCmp_lawful.swap_eq a b, lexCmp_swap as bs, then_swap]

theorem lexCmp_le_trans :
    ∀ as bs cs : List Char, (lexCmp as bs).isLE = true →
      (lexCmp bs cs).isLE = true → (lexCmp as cs).isLE = true
  | [], bs, cs => fun _ _ => by cases cs <;> rfl
  | _ :: _, [], _ => fun hab _ => by simp [lexCmp] at hab
  | _ :: _, _ :: _, [] => fun _ hbc => by simp [lexCmp] at hbc
  | a :: as, b :: bs, c :: cs => fun hab hbc => by
    have hab' : ((ordCmp a b).then (lexCmp as bs)).isLE = true := hab
    have hbc' : ((ordCmp b c).then (lexCmp bs cs)).isLE = true := hbc
    show ((ordCmp a c).then (lexCmp as cs)).isLE = true
    cases h1ab : ordCmp a b <;> rw [h1ab] at hab' <;>
        cases h1bc : ordCmp b c <;> rw [h1bc] at hbc'
    · rw [ordCmp_lawful.lt_trans' h1ab h1bc]; simp
    · rw [ordCmp_lawful.lt_of_lt_of_eq h1ab h1bc]; simp
    · simp at hbc'
    · rw [ordCmp_lawful.lt_of_eq_of_lt h1ab h1bc]; simp
    · rw [ordCmp_lawful.eq_trans' h1ab h1bc]
      simp only [eq_then] at hab' hbc' ⊢
      exact lexCmp_le_trans as bs cs hab' hbc'
    · simp at hbc'
    · simp at hab'
    · simp at hab'
    · simp at hab'

theorem lexCmp_lawful : LawfulCmp lexCmp where
  swap_eq a b := lexCmp_swap a b
  le_trans {a b c} hab hbc := lexCmp_le_trans a b c hab hbc

theorem optCmp_lawful {α : Type*} {cmp : α → α → Ordering}
    (h : LawfulCmp cmp) : LawfulCmp (optCmp cmp) where
  swap_eq a b := by
    cases a <;> cases b
    · rfl
    · rfl
    · rfl
    · exact h.swap_eq _ _
  le_trans {a b c} hab hbc := by
    cases a <;> cases b <;> cases c
    · rfl
    · rfl
    · simp [optCmp] at hbc
    · rfl
    · simp [optCmp] at hab
    · simp [optCmp] at hab
    · simp [optCmp] at hbc
    · exact h.le_trans hab hbc

theorem statCmp_lawful : LawfulCmp statCmp := by
  have h := ((ordCmp_lawful.comap Stat.question_id).thenCmp
    (((optCmp_lawful ordCmp_lawful).comap Stat.question_article_live).thenCmp
    (((optCmp_lawful lexCmp_lawful).comap Stat.question_article_slug).thenCmp
    ((lexCmp_lawful.comap Stat.question_title).thenCmp
    ((lexCmp_lawful.comap Stat.question_title_slug).thenCmp
    ((ordCmp_lawful.comap Stat.question_hide).thenCmp
    ((ordCmp_lawful.comap Stat.total_acs).thenCmp
    ((ordCmp_lawful.comap Stat.total_submitted).thenCmp
    ((ordCmp_lawful.comap Stat.frontend_question_id).thenCmp
    (ordCmp_lawful.comap Stat.is_new_question))))))))))
  exact h.congr fun a b => rfl

theorem pairCmp_lawful : LawfulCmp pairCmp := by
  have h := ((statCmp_lawful.comap StatStatusPair.stat).thenCmp
    (((optCmp_lawful lexCmp_lawful).comap StatStatusPair.status).thenCmp
    ((ordCmp_lawful.comap fun o : StatStatusPair => o.difficulty.level).thenCmp
    ((ordCmp_lawful.comap StatStatusPair.paid_only).thenCmp
    ((ordCmp_lawful.comap StatStatusPair.is_favor).thenCmp
    ((ordCmp_lawful.comap StatStatusPair.frequency).thenCmp
    (ordCmp_lawful.comap StatStatusPair.progress)))))))
  exact h.congr fun a b => rfl

theorem queryCharStep_eq (queries : List Query) (c : Char) :
    queryCharStep queries c = queries ++ (charToClause c).toList := by
  unfold queryCharStep charToClause
  split <;> simp_all

theorem fromStr_go (s : List Char) :
    ∀ acc : List Query,
      s.foldl queryCharStep acc = acc ++ s.filterMap charToClause := by
  induction s with
  | nil => intro acc; simp
  | cons c cs ih =>
    intro acc
    rw [List.foldl_cons, queryCharStep_eq, ih, List.filterMap_cons]
    cases charToClause c <;> simp

theorem filterMap_clause_filter (s : List Char) :
    (s.filter fun c => (charToClause c).isSome).filterMap charToClause
      = s.filterMap charToClause := by
  induction s with
  | nil => rfl
  | cons c cs ih =>
    cases h : charToClause c <;>
      simp [List.filter_cons, List.filterMap_cons, h, ih]

theorem applyStep_true_iff (q : Query) (o : StatStatusPair) :
    applyStep o true q = true ↔ ClauseHolds q o := by
  cases q <;> simp [applyStep, ClauseHolds, Option.isNone_iff_eq_none]

theorem applyStep_acc (o : StatStatusPair) (b : Bool) (q : Query) :
    applyStep o b q = (b && applyStep o true q) := by
  cases q <;> cases b <;> rfl

theorem applyQueries_foldl (o : StatStatusPair) :
    ∀ (queries : List Query) (b : Bool),
      queries.foldl (applyStep o) b
        = (b && queries.all fun q => applyStep o true q) := by
  intro queries
  induction queries with
  | nil => intro b; simp
  | cons q qs ih =>
    intro b
    rw [List.foldl_cons, applyStep_acc, ih, List.all_cons]
    cases b <;> cases applyStep o true q <;> rfl

theorem specMultiKeyCmp_cons (o : OrderBy) (rest : List OrderBy)
    (a b : StatStatusPair) :
    specMultiKeyCmp (o :: rest) a b
      = (keyCmp o a b).then (specMultiKeyCmp rest a b) := by
  simp only [specMultiKeyCmp]
  cases keyCmp o a b <;> rfl

theorem orderStep_eq (a b : StatStatusPair) (ordering : Ordering)
    (order : OrderBy) :
    orderStep a b ordering order = ordering.then (keyCmp order a b) := by
  cases order <;> rfl

theorem listSortCmp_foldl (a b : StatStatusPair) :
    ∀ (orders : List OrderBy) (acc : Ordering),
      orders.foldl (orderStep a b) acc
        = acc.then (specMultiKeyCmp orders a b)
  | [], acc => (then_eq_right acc).symm
  | o :: rest, acc => by
    rw [List.foldl_cons, orderStep_eq, listSortCmp_foldl a b rest,
      specMultiKeyCmp_cons, then_assoc]

theorem listSortCmp_eq_spec (orders : List OrderBy) (a b : StatStatusPair) :
    listSortCmp orders a b = specMultiKeyCmp orders a b := by
  rw [listSortCmp, listSortCmp_foldl]; rfl

theorem keyCmp_lawful (o : OrderBy) : LawfulCmp (keyCmp o) := by
  cases o
  · exact (ordCmp_lawful.comap fun s : StatStatusPair =>
      s.stat.question_id).congr fun a b => rfl
  · exact ((ordCmp_lawful.comap fun s : StatStatusPair =>
      s.stat.question_id).swapCmp).congr fun a b => rfl
  · exact (lexCmp_lawful.comap fun s : StatStatusPair =>
      s.stat.question_title_slug).congr fun a b => rfl
  · exact ((lexCmp_lawful.comap fun s : StatStatusPair =>
      s.stat.question_title_slug).swapCmp).congr fun a b => rfl
  · exact (ordCmp_lawful.comap fun s : StatStatusPair =>
      s.difficulty.level).congr fun a b => rfl
  · exact ((ordCmp_lawful.comap fun s : StatStatusPair =>
      s.difficulty.level).swapCmp).congr fun a b => rfl

theorem specMultiKeyCmp_lawful :
    ∀ orders : List OrderBy, LawfulCmp (specMultiKeyCmp orders)
  | [] => ⟨fun _ _ => rfl, fun _ _ => rfl⟩
  | o :: rest =>
    (((keyCmp_lawful o).thenCmp (specMultiKeyCmp_lawful rest)).congr
      fun a b => (specMultiKeyCmp_cons o rest a b).symm)

theorem listSortCmp_lawful (orders : List OrderBy) :
    LawfulCmp (listSortCmp orders) :=
  (specMultiKeyCmp_lawful orders).congr
    fun a b => (listSortCmp_eq_spec orders a b).symm

theorem cmpLE_total {α : Type*} {cmp : α → α → Ordering}
    (h : LawfulCmp cmp) : IsTotal α (cmpLE cmp) where
  total a b := by
    unfold cmpLE
    cases hab : cmp a b
    · left; rfl
    · left; rfl
    · right; rw [h.swap_eq, hab]; rfl

theorem cmpLE_trans {α : Type*} {cmp : α → α → Ordering}
    (h : LawfulCmp cmp) : IsTrans α (cmpLE cmp) where
  trans _ _ _ hab hbc := h.le_trans hab hbc

theorem keyCmp_desc_swap (ax : Axis) (a b : StatStatusPair) :
    keyCmp ax.desc a b = (keyCmp ax.asc a b).swap := by
  cases ax <;> rfl

theorem applyQueries_iff (queries : List Query) (o : StatStatusPair) :
    applyQueries queries o = true ↔ ∀ q ∈ queries, ClauseHolds q o := by
  rw [applyQueries, applyQueries_foldl]
  simp only [Bool.true_and, List.all_eq_true]
  constructor
  · intro h q hq; exact (applyStep_true_iff q o).mp (h q hq)
  · intro h q hq; exact (applyStep_true_iff q o).mpr (h q hq)

theorem applyQueries_eq_decide (queries : List Query) (o : StatStatusPair) :
    applyQueries queries o = decide (∀ q ∈ queries, ClauseHolds q o) := by
  by_cases hq : ∀ q ∈ queries, ClauseHolds q o
  · rw [(applyQueries_iff queries o).mpr hq]
    exact (decide_eq_true hq).symm
  · rw [decide_eq_false hq]
    cases h : applyQueries queries o with
    | false => rfl
    | true => exact absurd ((applyQueries_iff queries o).mp h) hq

theorem containsSub_nil (s : List Char) : containsSub s [] = true :=
  decide_eq_true ⟨[], s, rfl⟩

theorem filterStage_no_keyword (queries : List Query)
    (kw : Option (List Char)) (hkw : kw.getD [] = [])
    (probs : List StatStatusPair) :
    filterStage queries kw probs = probs.filter (applyQueries queries) := by
  refine List.filter_congr fun o _ => ?_
  show (containsSub o.stat.question_title_slug
      (toAsciiLowercase (kw.getD [])) && applyQueries queries o) = _
  rw [hkw]
  rw [show toAsciiLowercase ([] : List Char) = [] from rfl]
  rw [containsSub_nil, Bool.true_and]

theorem applyQueries_easy_notEasy (o : StatStatusPair) :
    applyQueries [Query.Easy, Query.NotEasy] o = false := by
  show ((true && (o.difficulty.level == 1))
    && !(o.difficulty.level == 1)) = false
  cases o.difficulty.level == 1 <;> rfl

theorem listSortCmp_single (o : OrderBy) (a b : StatStatusPair) :
    listSortCmp [o] a b = keyCmp o a b := by
  rw [listSortCmp_eq_spec, specMultiKeyCmp_cons]
  simp only [specMultiKeyCmp, then_eq_right]

theorem insertionSort_trivial (l : List StatStatusPair) :
    List.insertionSort (cmpLE (listSortCmp [])) l = l := by
  induction l with
  | nil => rfl
  | cons a l ih =>
    rw [List.insertionSort, ih]
    cases l with
    | nil => rfl
    | cons b m => exact List.orderedInsert_of_le (cmpLE (listSortCmp [])) m rfl

/-- C1: for every record and clause sequence, `apply_queries` returns true
iff the record satisfies every individual clause under the exact per-clause
semantics (Easy/NotEasy is level = 1 / ≠ 1, Medium 2 and Hard 3 analogously,
Locked/Unlocked is `paid_only` true/false, Done/NotDone is completion status
present/absent, Starred/Unstarred is `is_favor` true/false); in particular
the empty clause sequence matches every record. -/
theorem claim1_evaluator_conjunction (queries : List Query)
    (o : StatStatusPair) :
    (applyQueries queries o = true ↔ ∀ q ∈ queries, ClauseHolds q o)
    ∧ applyQueries [] o = true :=
  ⟨applyQueries_iff queries o, rfl⟩

/-- C3: `Query::from_str` emits exactly one clause per recognized character
of the case-sensitive table, in encounter order, silently skipping every
other character; the empty string parses to the empty clause sequence, and
parsing a string equals parsing the string with its unrecognized characters
removed. -/
theorem claim3_query_parse (s : List Char) :
    Query.fromStr s = s.filterMap charToClause
    ∧ Query.fromStr [] = []
    ∧ Query.fromStr s
        = Query.fromStr (s.filter fun c => (charToClause c).isSome) := by
  have h1 : ∀ t : List Char, Query.fromStr t = t.filterMap charToClause := by
    intro t; rw [Query.fromStr, fromStr_go]; rfl
  refine ⟨h1 s, rfl, ?_⟩
  rw [h1, h1, filterMap_clause_filter]

/-- C5: the filter stage returns exactly the records whose `title_slug`
contains the lower-cased keyword as a substring and which satisfy the
clause conjunction, as an order-preserving subsequence of the input; an
absent or empty keyword imposes no keyword condition.  (The stage is a pure
function of its inputs, so determinism is immediate.) -/
theorem claim5_filter_stage (queries : List Query)
    (keyword : Option (List Char)) (probs : List StatStatusPair) :
    filterStage queries keyword probs
      = probs.filter (fun o =>
          decide (toAsciiLowercase (keyword.getD [])
              <:+: o.stat.question_title_slug)
            && decide (∀ q ∈ queries, ClauseHolds q o))
    ∧ List.Sublist (filterStage queries keyword probs) probs
    ∧ filterStage queries none probs = probs.filter (applyQueries queries)
    ∧ filterStage queries (some []) probs
        = probs.filter (applyQueries queries) := by
  refine ⟨?_, List.filter_sublist probs,
    filterStage_no_keyword queries none rfl probs,
    filterStage_no_keyword queries (some []) rfl probs⟩
  refine List.filter_congr fun o _ => ?_
  show (containsSub o.stat.question_title_slug
      (toAsciiLowercase (keyword.getD [])) && applyQueries queries o) = _
  rw [applyQueries_eq_decide]
  rfl

/-- C7: the clause string "eE" parses to Easy AND NotEasy, a contradiction
the evaluator can never satisfy, so the filtered result set is empty for
every record set and keyword, with no error (all functions are total). -/
theorem claim7_unsatisfiable_filter :
    Query.fromStr ['e', 'E'] = [Query.Easy, Query.NotEasy]
    ∧ (∀ o, applyQueries (Query.fromStr ['e', 'E']) o = false)
    ∧ (∀ (keyword : Option (List Char)) (probs : List StatStatusPair),
        filterStage (Query.fromStr ['e', 'E']) keyword probs = []) := by
  refine ⟨rfl, fun o => applyQueries_easy_notEasy o, ?_⟩
  intro keyword probs
  rw [filterStage]
  refine List.filter_eq_nil_iff.mpr fun o _ => ?_
  show ¬ filterPredicate [Query.Easy, Query.NotEasy] keyword o = true
  rw [filterPredicate, applyQueries_easy_notEasy o, Bool.and_false]
  exact Bool.false_ne_true

/-- C9: `list_problems` in `src/src/service/list.rs` unconditionally
unwraps the optional query string, so it panics (returns no listing) for
every input whose query field is `None`, and only a present query string
produces a listing: the query string is de-facto required there. -/
theorem claim9_query_unwrap (ord kw : Option (List Char))
    (probs : List StatStatusPair) :
    listProblemsList ⟨ord, none, kw⟩ probs = none
    ∧ ∀ q, (listProblemsList ⟨ord, some q, kw⟩ probs).isSome = true :=
  ⟨rfl, fun _ => rfl⟩

/-- C10: when an order specification is present but parses to no keys, the
folded comparator returns `Equal` for every pair, and the stable sort
leaves the records exactly in their original order; the default
`Ord`-based ordering runs only when the specification is absent, as the
concrete inequality shows. -/
theorem claim10_empty_order_keys :
    (∀ a b, listSortCmp [] a b = Ordering.eq)
    ∧ (∀ l, sortStage (some []) l = l)
    ∧ sortStage (some []) [mkRecord 2 ['b'] 1, mkRecord 1 ['a'] 1]
        ≠ sortStage none [mkRecord 2 ['b'] 1, mkRecord 1 ['a'] 1] := by
  exact ⟨fun _ _ => rfl, fun l => insertionSort_trivial l, by decide⟩

/-- C4 as the spec's end-to-end example 1 states it is false: with keys
(difficulty ascending, id ascending) applied to the records
{id 3, "c", diff 1}, {id 1, "a", diff 2}, {id 2, "b", diff 1}, the id
tie-break orders id 2 before id 3 inside difficulty 1, so the output is
not [{id 3}, {id 2}, {id 1}]. -/
theorem claim4_example_cex :
    sortByOrders [OrderBy.DifficultyAsc, OrderBy.IdAsc]
      [mkRecord 3 ['c'] 1, mkRecord 1 ['a'] 2, mkRecord 2 ['b'] 1]
      ≠ [mkRecord 3 ['c'] 1, mkRecord 2 ['b'] 1, mkRecord 1 ['a'] 2] := by
  decide

/-- C4 amended: sorting those records with (difficulty ascending, id
ascending) produces [{id 2, diff 1}, {id 3, diff 1}, {id 1, diff 2}]. -/
theorem claim4_example_amended :
    sortByOrders [OrderBy.DifficultyAsc, OrderBy.IdAsc]
      [mkRecord 3 ['c'] 1, mkRecord 1 ['a'] 2, mkRecord 2 ['b'] 1]
      = [mkRecord 2 ['b'] 1, mkRecord 3 ['c'] 1, mkRecord 1 ['a'] 2] := by
  decide

/-- C2: for every record sequence and non-empty key sequence, the sorter
returns a permutation of the input that is pairwise ordered by the
first-non-equal-key-wins comparison; the comparator the code folds equals
that specification, each descending key inverts exactly its own key's
comparison (not the final sequence), and every chain of records that are
equal under all active keys survives as a sublist, i.e. keeps its original
relative order (stability). -/
theorem claim2_multikey_sorter (orders : List OrderBy)
    (l : List StatStatusPair) (h : orders ≠ []) :
    List.Perm (sortByOrders orders l) l
    ∧ List.Pairwise (fun a b => (specMultiKeyCmp orders a b).isLE = true)
        (sortByOrders orders l)
    ∧ (∀ a b, listSortCmp orders a b = specMultiKeyCmp orders a b)
    ∧ (∀ ax a b, keyCmp (Axis.desc ax) a b = (keyCmp (Axis.asc ax) a b).swap)
    ∧ (∀ c, List.Sublist c l →
        List.Pairwise (fun a b => specMultiKeyCmp orders a b = Ordering.eq) c →
        List.Sublist c (sortByOrders orders l)) := by
  haveI := cmpLE_total (listSortCmp_lawful orders)
  haveI := cmpLE_trans (listSortCmp_lawful orders)
  refine ⟨List.perm_insertionSort _ l, ?_, listSortCmp_eq_spec orders,
    fun ax a b => keyCmp_desc_swap ax a b, ?_⟩
  · have hs := List.sorted_insertionSort (cmpLE (listSortCmp orders)) l
    exact hs.imp fun {a b} hab => by
      rwa [cmpLE, listSortCmp_eq_spec] at hab
  · intro c hc hp
    refine List.sublist_insertionSort ?_ hc
    exact hp.imp fun {a b} hab => by
      rw [cmpLE, listSortCmp_eq_spec, hab]; rfl

/-- C2 witness: the theorem applied to the key sequence [IdAsc] and a
one-record list. -/
theorem claim2_multikey_sorter_witness :
    List.Perm (sortByOrders [OrderBy.IdAsc] [mkRecord 1 ['a'] 1])
      [mkRecord 1 ['a'] 1] :=
  (claim2_multikey_sorter [OrderBy.IdAsc] [mkRecord 1 ['a'] 1] (by decide)).1

/-- C8 as stated is false: [recA, recB] with equal difficulty 1 and ids
1, 2 is sorted ascending (non-strictly) under the single difficulty key,
yet the stable descending sort keeps the tied pair in place, which is not
the reverse of the ascending sort. -/
theorem claim8_symmetry_cex :
    List.Pairwise (cmpLE (listSortCmp [OrderBy.DifficultyAsc]))
      [mkRecord 1 ['a'] 1, mkRecord 2 ['b'] 1]
    ∧ sortByOrders [OrderBy.DifficultyDesc]
        [mkRecord 1 ['a'] 1, mkRecord 2 ['b'] 1]
      ≠ (sortByOrders [OrderBy.DifficultyAsc]
        [mkRecord 1 ['a'] 1, mkRecord 2 ['b'] 1]).reverse := by
  exact ⟨by decide, by decide⟩

/-- C8 amended: for every record sequence sorted strictly ascending under a
single key (no two records tie on that key), sorting with that key
descending yields the exact reverse of sorting with it ascending; and the
reverse symmetry fails for a mixed-direction two-key specification, as the
concrete inequality shows. -/
theorem claim8_symmetry_amended :
    (∀ (ax : Axis) (l : List StatStatusPair),
        List.Pairwise (fun x y => keyCmp ax.asc x y = Ordering.lt) l →
        sortByOrders [ax.desc] l = (sortByOrders [ax.asc] l).reverse)
    ∧ sortByOrders [OrderBy.DifficultyAsc, OrderBy.IdDesc]
        [mkRecord 1 ['a'] 1, mkRecord 2 ['b'] 1, mkRecord 3 ['c'] 2]
      ≠ (sortByOrders [OrderBy.DifficultyAsc, OrderBy.IdAsc]
        [mkRecord 1 ['a'] 1, mkRecord 2 ['b'] 1, mkRecord 3 ['c'] 2]).reverse := by
  refine ⟨?_, by decide⟩
  intro ax l hstrict
  have hsorted_asc : List.Sorted (cmpLE (listSortCmp [ax.asc])) l :=
    hstrict.imp fun {x y} hxy => by
      rw [cmpLE, listSortCmp_single, hxy]; rfl
  rw [show sortByOrders [ax.asc] l = l from hsorted_asc.insertionSort_eq]
  haveI := cmpLE_total (listSortCmp_lawful [ax.desc])
  haveI := cmpLE_trans (listSortCmp_lawful [ax.desc])
  have hperm : List.Perm (sortByOrders [ax.desc] l) l.reverse :=
    (List.perm_insertionSort _ l).trans (List.reverse_perm l).symm
  have hne : List.Pairwise (fun x y => keyCmp ax.asc x y ≠ Ordering.eq)
      (sortByOrders [ax.desc] l) := by
    have hsym : ∀ {x y : StatStatusPair},
        keyCmp ax.asc x y ≠ Ordering.eq → keyCmp ax.asc y x ≠ Ordering.eq :=
      fun {x y} hxy hc => hxy ((keyCmp_lawful ax.asc).eq_symm hc)
    have hl : List.Pairwise (fun x y => keyCmp ax.asc x y ≠ Ordering.eq) l :=
      hstrict.imp fun {x y} hxy => by rw [hxy]; intro hcon; cases hcon
    exact ((List.perm_insertionSort (cmpLE (listSortCmp [ax.desc])) l).pairwise_iff
      hsym).mpr hl
  have hsorted : List.Pairwise (cmpLE (listSortCmp [ax.desc]))
      (sortByOrders [ax.desc] l) :=
    List.sorted_insertionSort _ l
  have hgt : List.Pairwise (fun x y => keyCmp ax.asc x y = Ordering.gt)
      (sortByOrders [ax.desc] l) := by
    refine (hsorted.and hne).imp fun {x y} hxy => ?_
    obtain ⟨h1, h2⟩ := hxy
    rw [cmpLE, listSortCmp_single, keyCmp_desc_swap] at h1
    cases hk : keyCmp ax.asc x y
    · rw [hk] at h1; simp at h1
    · exact absurd hk h2
    · rfl
  have hrev : List.Pairwise (fun x y => keyCmp ax.asc x y = Ordering.gt)
      l.reverse := by
    rw [List.pairwise_reverse]
    exact hstrict.imp fun {x y} hxy => by
      rw [(keyCmp_lawful ax.asc).swap_eq, hxy]; rfl
  haveI : IsAntisymm StatStatusPair
      (fun x y => keyCmp ax.asc x y = Ordering.gt) := ⟨by
    intro a b hab hba
    have hs := (keyCmp_lawful ax.asc).swap_eq a b
    rw [hba, hab] at hs
    cases hs⟩
  exact List.eq_of_perm_of_sorted hperm hgt hrev

/-- C8 witness: the universal part applied to the id axis and a concrete
strictly-ascending two-record list. -/
theorem claim8_symmetry_witness :
    sortByOrders [OrderBy.IdDesc] [mkRecord 1 ['a'] 1, mkRecord 2 ['b'] 1]
      = (sortByOrders [OrderBy.IdAsc]
        [mkRecord 1 ['a'] 1, mkRecord 2 ['b'] 1]).reverse :=
  claim8_symmetry_amended.1 Axis.id
    [mkRecord 1 ['a'] 1, mkRecord 2 ['b'] 1] (by decide)

/-- C6 as stated is false: the derived default ordering compares the
declared fields in order (`question_article_live` comes before the title),
not identifier-title-difficulty; on records with equal ids it can disagree
with the identifier-title-difficulty ordering the claim describes. -/
theorem claim6_default_order_cex :
    defaultSort [recLiveB, recLiveA] = [recLiveB, recLiveA]
    ∧ claimDefaultSort [recLiveB, recLiveA] = [recLiveA, recLiveB]
    ∧ defaultSort [recLiveB, recLiveA]
        ≠ claimDefaultSort [recLiveB, recLiveA] := by
  exact ⟨by decide, by decide, by decide⟩

/-- C6 amended: the default sort orders records by the full declared-field
lexicographic ordering (identifier first, then the remaining `Stat` fields
in declaration order, then status, difficulty and the remaining pair
fields); because the identifier is the first field, a record sequence with
pairwise-distinct question ids is sorted exactly into ascending question-id
order. -/
theorem claim6_default_order_amended (l : List StatStatusPair) :
    List.Perm (defaultSort l) l
    ∧ List.Pairwise (cmpLE pairCmp) (defaultSort l)
    ∧ (List.Pairwise (fun a b => a.stat.question_id ≠ b.stat.question_id) l →
        List.Pairwise (fun a b => a.stat.question_id < b.stat.question_id)
          (defaultSort l)) := by
  haveI := cmpLE_total pairCmp_lawful
  haveI := cmpLE_trans pairCmp_lawful
  refine ⟨List.perm_insertionSort _ l, List.sorted_insertionSort _ l, ?_⟩
  intro hne
  have hne' : List.Pairwise
      (fun a b => a.stat.question_id ≠ b.stat.question_id) (defaultSort l) :=
    ((List.perm_insertionSort (cmpLE pairCmp) l).pairwise_iff
      fun {x y} hxy => hxy.symm).mpr hne
  have hsorted : List.Pairwise (cmpLE pairCmp) (defaultSort l) :=
    List.sorted_insertionSort _ l
  refine (hsorted.and hne').imp fun {a b} hab => ?_
  obtain ⟨h1, h2⟩ := hab
  have h3 : (statCmp a.stat b.stat).isLE = true := isLE_then_left h1
  have h4 : (ordCmp a.stat.question_id b.stat.question_id).isLE = true :=
    isLE_then_left h3
  exact lt_of_le_of_ne (ordCmp_isLE.mp h4) h2

/-- C6 witness: the amended theorem applied to a concrete two-record list
with distinct ids given out of order. -/
theorem claim6_default_order_witness :
    List.Pairwise (fun a b => a.stat.question_id < b.stat.question_id)
      (defaultSort [mkRecord 2 ['b'] 1, mkRecord 1 ['a'] 1]) :=
  (claim6_default_order_amended [mkRecord 2 ['b'] 1, mkRecord 1 ['a'] 1]).2.2
    (by decide)

end Leetup
